import Mathlib

/-!
Verification of the `postgres_money` crate (files `src/lib.rs`, `src/parser.rs`,
`src/parser/error.rs`): a shallow embedding of the `Money` value type (a wrapped
`i64` counting cents), its display form, its arithmetic operators, and the
`en_US.UTF-8` string parser, together with theorems settling the frozen claims.

Modelling conventions:
* Rust `i64` values are Lean `Int`s; the range invariant `-2^63 ≤ n ≤ 2^63 - 1`
  is carried as an explicit hypothesis or checked by the embedded operations.
  Rust's `checked_mul` / `checked_add` become functions returning `Option Int`;
  the plain (debug-panicking) operators become functions returning
  `Option Money`, where `none` is the panic.
* Rust strings are `List Char`.  All inputs relevant to the claims are ASCII;
  the regex class `\d` is modelled as the ASCII digit test (the crate's regex
  would also let non-ASCII Unicode digits through the structural match, but
  every such input then fails `str::parse::<i64>` or byte-slicing, and no claim
  touches one).
* The values of finite `f64`/`f32` scalars are modelled as exact rationals.
  The saturating `as i64` cast and the behaviour of division by (positive)
  float zero are exact under this model; `f64::round` is round half away from
  zero on the exact value.
-/

/-- `i64::MIN`. -/
def minInner : Int := -(2 ^ 63)

/-- `i64::MAX`. -/
def maxInner : Int := 2 ^ 63 - 1

/-- `pub struct Money(Inner)` with `type Inner = i64`. -/
structure Money where
  inner : Int
deriving DecidableEq

/-- `Money::min()`. -/
def Money.min' : Money := ⟨minInner⟩

/-- `Money::max()`. -/
def Money.max' : Money := ⟨maxInner⟩

/-- `Money::none()`. -/
def Money.none' : Money := ⟨0⟩

/-! ### Decimal digit strings

`digitVal`/`digitsToNat` model how `str::parse::<i64>` reads a run of ASCII
digits; `formatNat` models `format!("{}", n)` for a non-negative value. -/

/-- ASCII decimal digit test (`'0'` to `'9'`); models the regex class `\d` and
the digit test of `str::parse::<i64>` on the ASCII inputs the claims use. -/
def isDig (c : Char) : Bool := decide (48 ≤ c.toNat ∧ c.toNat ≤ 57)

/-- Numeric value of an ASCII digit character. -/
def digitVal (c : Char) : Nat := c.toNat - 48

/-- One step of reading a decimal numeral most-significant digit first. -/
def dstep (a : Nat) (c : Char) : Nat := 10 * a + digitVal c

/-- The number denoted by a digit string (most significant digit first). -/
def digitsToNat (s : List Char) : Nat := s.foldl dstep 0

/-- The ASCII digit character for `n % 10`-style values. -/
def digitChar (n : Nat) : Char := Char.ofNat (48 + n)

/-- Fuel-driven digit expansion (structural recursion so that closed values
reduce inside the kernel); `natDigits` supplies `n` itself as fuel. -/
def natDigitsGo : Nat → Nat → List Char
  | 0, _ => []
  | fuel + 1, n => if n = 0 then [] else natDigitsGo fuel (n / 10) ++ [digitChar (n % 10)]

/-- Decimal digits of `n`, empty for `0` (helper for `formatNat`). -/
def natDigits (n : Nat) : List Char := natDigitsGo n n

/-- `format!("{}", n)` for a non-negative integer: its decimal numeral. -/
def formatNat (n : Nat) : List Char := if n = 0 then ['0'] else natDigits n

/-! ### Display (`impl Display for Money`) -/

/-- `Money::dollars`: `format!("{}", (self.0 / 100).abs())`.  Rust `i64`
division truncates toward zero, hence `Int.tdiv`; `self.0 / 100` is never
`i64::MIN`, so `.abs()` cannot panic. -/
def Money.dollars (m : Money) : List Char := formatNat (Int.natAbs (Int.tdiv m.inner 100))

/-- `Money::cents`: `(self.0 % 100).abs()` (Rust `%` is `Int.tmod`),
zero-padded on the left to two characters. -/
def Money.cents (m : Money) : List Char :=
  let n := Int.natAbs (Int.tmod m.inner 100)
  (if n < 10 then ['0'] else []) ++ formatNat n

/-- `Money::sign`: `"-"` for negative values, `""` otherwise. -/
def Money.sign (m : Money) : List Char := if m.inner < 0 then ['-'] else []

/-- `impl Display for Money`: `format!("{}${}.{}", sign, dollars, cents)`. -/
def Money.toDisplayChars (m : Money) : List Char :=
  m.sign ++ '$' :: (m.dollars ++ '.' :: m.cents)

/-! ### `mk_int` (`str::parse::<i64>` plus the error mapping) -/

/-- Error type of the parser (`src/parser/error.rs`). -/
inductive Error where
  | outOfRange
  | parseInt
  | invalidString
deriving DecidableEq

/-- Splits an optional leading sign off the numeral, as `str::parse::<i64>`
does; the `Bool` is true for a leading `'-'`. -/
def splitNumSign (s : List Char) : Bool × List Char :=
  match s with
  | [] => (false, [])
  | c :: t => if c = '+' then (false, t) else if c = '-' then (true, t) else (false, s)

/-- `str::parse::<i64>` on the exact character list.  `.error true` stands for
the `PosOverflow` error, whose message is the only one containing the words
"too large" that `mk_int`'s workaround greps for; every other failure
(invalid digit, empty numeral, `NegOverflow`) is `.error false`. -/
def parseI64 (s : List Char) : Except Bool Int :=
  let p := splitNumSign s
  if p.2.isEmpty then .error false
  else if p.2.all isDig then
    let n := digitsToNat p.2
    if p.1 then
      if (n : Int) ≤ 2 ^ 63 then .ok (-(n : Int)) else .error false
    else
      if (n : Int) ≤ maxInner then .ok (n : Int) else .error true
  else .error false

/-- `mk_int`: empty string parses as `0`; otherwise `str::parse::<i64>`, with
"too large" mapped to `OutOfRange` and everything else to `ParseInt`. -/
def mkInt (s : List Char) : Except Error Int :=
  if s.isEmpty then .ok 0
  else
    match parseI64 s with
    | .ok n => .ok n
    | .error b => .error (if b then .outOfRange else .parseInt)

/-! ### Cents rounding (`mk_rounded_cents` / `round_cents`) -/

/-- `round_cents`: keep the first three characters, split off the third, and
round the two-digit prefix up when the third digit is at least five. -/
def roundCents (s : List Char) : Except Error Int := do
  let t := s.take 3
  let i1 ← mkInt (t.take 2)
  let i2 ← mkInt (t.drop 2)
  if i2 ≥ 5 then pure (i1 + 1) else pure i1

/-- `mk_rounded_cents`: strings of length at most two are read literally,
longer ones are rounded to two digits. -/
def mkRoundedCents (s : List Char) : Except Error Int :=
  if s.length > 2 then roundCents s else mkInt s

/-! ### Structural match (`Amount::valid_inner`, `Amount::new`) -/

/-- Sign of a parsed amount (`enum AmountKind`). -/
inductive AmountKind where
  | negative
  | positive
deriving DecidableEq

/-- `struct Amount`: sign, whole-part digits (commas already stripped by
`Amount::new`), raw fractional digits. -/
structure Amount where
  kind : AmountKind
  dollars : List Char
  cents : List Char
deriving DecidableEq

/-- A character the `dollars` capture group `[\d,]*` accepts. -/
def isDigOrComma (c : Char) : Bool := isDig c || c = ','

/-- `.replace(",", "")` on the dollars capture. -/
def stripCommas (l : List Char) : List Char := l.filter (fun c => !(c == ','))

/-- The capture groups of `^\$?(?P<dollars>[\d,]*)\.?(?P<cents>\d*$)` when the
regex matches, `none` otherwise.  The pattern is anchored on both sides (the
`$` sits inside the cents group), so a match must consume the whole string:
an optional leading `'$'`, a run of digits and commas, then optionally a `'.'`
followed by digits running to the end.  Greedy matching of `[\d,]*` is
complete here: any backtracked split hands a digit or comma to the cents
group's position without making the leftover non-digit disappear. -/
def validInner (s : List Char) : Option (List Char × List Char) :=
  let s1 := match s with
    | '$' :: t => t
    | t => t
  let d := s1.takeWhile isDigOrComma
  match s1.dropWhile isDigOrComma with
  | [] => some (d, [])
  | '.' :: c => if c.all isDig then some (d, c) else none
  | _ => none

/-- `Amount::new`: run `valid_inner`, strip commas from the dollars capture.
(`caps.len()` is always 3 for this regex, so the `caps.len() != 3` guard in
the source never fires and is not modelled.) -/
def Amount.new (k : AmountKind) (inner : List Char) : Except Error Amount :=
  match validInner inner with
  | none => .error .invalidString
  | some (d, c) => .ok ⟨k, stripCommas d, c⟩

/-! ### Sign detection (`Amount::from`) -/

/-- Greedy `.*`: in the `regex` crate `.` matches any character except a
newline. -/
def dotStarTake (s : List Char) : List Char := s.takeWhile (fun c => !(c == '\n'))

/-- Leftmost match of `-(.*)`: the capture is everything after the first
`'-'`, up to a newline or the end. -/
def findMinusCapture : List Char → Option (List Char)
  | [] => none
  | c :: rest => if c = '-' then some (dotStarTake rest) else findMinusCapture rest

/-- Within one non-newline window after a `'('`: the text before the last
`')'` of the window (greedy `.*` backtracking to the last closer), or `none`
when the window has no `')'`. -/
def lastParenSplit (t : List Char) : Option (List Char) :=
  if t.contains ')' then some (((t.reverse.dropWhile (fun c => !(c == ')'))).drop 1).reverse)
  else none

/-- Leftmost match of `\((.*)\)`: the first `'('` whose non-newline window
holds a `')'`; the capture is the window text before its last `')'`. -/
def findParenCapture : List Char → Option (List Char)
  | [] => none
  | c :: rest =>
    if c = '(' then
      match lastParenSplit (dotStarTake rest) with
      | some cap => some cap
      | none => findParenCapture rest
    else findParenCapture rest

/-- `Amount::from`: if exactly one of the sign regexes `-(.*)`, `\((.*)\)`
matches, parse the capture as a negative amount; if neither matches, parse the
whole string as positive; if both match, the string is invalid. -/
def Amount.fromChars (s : List Char) : Except Error Amount :=
  match findMinusCapture s, findParenCapture s with
  | some _, some _ => .error .invalidString
  | some c, none => Amount.new .negative c
  | none, some c => Amount.new .negative c
  | none, none => Amount.new .positive s

/-! ### Combine (`Amount::apply_sign`, `Amount::combine_dollars_and_cents`) -/

/-- `i64::checked_mul`. -/
def checkedMulI64 (a b : Int) : Option Int :=
  if minInner ≤ a * b ∧ a * b ≤ maxInner then some (a * b) else none

/-- `i64::checked_add`. -/
def checkedAddI64 (a b : Int) : Option Int :=
  if minInner ≤ a + b ∧ a + b ≤ maxInner then some (a + b) else none

/-- `Option::ok_or`. -/
def okOr (o : Option Int) (e : Error) : Except Error Int :=
  match o with
  | some v => .ok v
  | none => .error e

/-- `Amount::apply_sign`: `-1` for a negative amount, `1` otherwise. -/
def Amount.applySign (a : Amount) : Int := if a.kind = .negative then -1 else 1

/-- `Amount::combine_dollars_and_cents`: multiply each of the two converted
parts by the sign, then `dollars.checked_mul(100)?.checked_add(cents)`, each
failure reported as `OutOfRange`. -/
def Amount.combineDollarsAndCents (a : Amount) : Except Error Int := do
  let dollars := (← mkInt a.dollars) * a.applySign
  let cents := (← mkRoundedCents a.cents) * a.applySign
  let m ← okOr (checkedMulI64 dollars 100) .outOfRange
  okOr (checkedAddI64 m cents) .outOfRange

/-- `Amount::to_money`. -/
def Amount.toMoney (a : Amount) : Except Error Money :=
  (a.combineDollarsAndCents).map Money.mk

/-- `parse_en_us_utf8`. -/
def parseEnUsUtf8 (s : List Char) : Except Error Money :=
  Amount.fromChars s >>= Amount.toMoney

/-- `Money::parse_str`. -/
def Money.parseStr (s : String) : Except Error Money := parseEnUsUtf8 s.toList

/-! ### Arithmetic operators (`src/lib.rs`)

The plain `i64` operators panic on overflow (the crate's tests are compiled
with debug assertions and assert exactly that); a panic is modelled as `none`.
-/

/-- An `i64` arithmetic result: the value when it fits, `none` (panic) when it
lies outside the signed 64-bit range. -/
def i64Result (n : Int) : Option Money :=
  if minInner ≤ n ∧ n ≤ maxInner then some ⟨n⟩ else none

/-- `impl Add for Money` (`derive_op_trait_from_inner!`):
`Money(self.inner().add(rhs.inner()))`. -/
def Money.add (a b : Money) : Option Money := i64Result (a.inner + b.inner)

/-- `impl Sub for Money` (`derive_op_trait_from_inner!`):
`Money(self.inner().sub(rhs.inner()))`. -/
def Money.sub (a b : Money) : Option Money := i64Result (a.inner - b.inner)

/-- `impl Mul<$t> for Money` (`derive_trait_for_money_with_type!`):
`Money(self.inner().mul(rhs as i64))`, for each integer scalar type
`i64 i32 i16 i8 u32 u16 u8`; `k` is the scalar's value after the lossless
`as i64` cast. -/
def Money.mulInt (m : Money) (k : Int) : Option Money := i64Result (m.inner * k)

/-- `impl Mul<Money> for $t` (`derive_trait_for_type_with_money!`):
`Money((self as i64).mul(rhs.inner()))`. -/
def mulIntMoney (k : Int) (m : Money) : Option Money := i64Result (k * m.inner)

/-- `impl Div<$t> for Money` (`add_div_impl!`): `Money(self.inner().div(rhs as
i64))` for the integer scalar types.  Rust `i64` division truncates toward
zero and panics on a zero divisor or on `i64::MIN / -1`; both panics fall out
of the zero test and the range check. -/
def Money.divInt (m : Money) (k : Int) : Option Money :=
  if k = 0 then none else i64Result (Int.tdiv m.inner k)

/-! ### Float scalar operators

A finite `f64`/`f32` scalar is represented by its exact rational value. -/

/-- Truncation of a rational toward zero (`Int.tdiv` of numerator by
denominator truncates toward zero, and `q.den > 0`). -/
def ratTrunc (q : ℚ) : Int := Int.tdiv q.num (q.den : Int)

/-- Saturation of an out-of-range float-to-int cast into the `i64` range. -/
def satI64 (t : Int) : Int :=
  if t < minInner then minInner else if maxInner < t then maxInner else t

/-- The saturating `as i64` cast of a finite float value: truncate toward
zero, clamp into the `i64` range. -/
def f64AsI64 (q : ℚ) : Int := satI64 (ratTrunc q)

/-- `f64::round` / `f32::round` on an exact value: round half away from zero.
In magnitudes, `|q|` rounded half up is `⌊(2·|num| + den) / (2·den)⌋`, and the
result carries the sign of `q`. -/
def floatRound (q : ℚ) : Int :=
  let n : Nat := (2 * q.num.natAbs + q.den) / (2 * q.den)
  if 0 ≤ q.num then (n : Int) else -(n : Int)

/-- `impl Mul<f64> for Money` and `impl Mul<f32> for Money`: the macro
instantiation is the very same `Money(self.inner().mul(rhs as i64))` as for
the integer scalars, so the float is truncated to an integer *before* the
multiplication. -/
def Money.mulFloat (m : Money) (q : ℚ) : Option Money :=
  i64Result (m.inner * f64AsI64 q)

/-- `impl Mul<Money> for f64` / `f32`: `Money((self as i64).mul(rhs.inner()))`. -/
def mulFloatMoney (q : ℚ) (m : Money) : Option Money :=
  i64Result (f64AsI64 q * m.inner)

/-- `impl Div<f64> for Money`: `Money((self.inner() as f64 / rhs).round() as
i64)`.  The quotient and rounding are modelled as exact rational arithmetic;
the `as i64` cast saturates.  For a zero divisor the IEEE quotient is `±∞`
(`NaN` for `0.0 / 0.0`) and the saturating cast sends those to `i64::MAX`,
`i64::MIN` and `0` respectively — that branch is exact, no rounding is
involved.  (`impl Div<f32> for Money` is the same computation at `f32`
precision and is covered by the same model.) -/
def Money.divFloat (m : Money) (q : ℚ) : Money :=
  if q.num = 0 then
    if 0 < m.inner then ⟨maxInner⟩ else if m.inner < 0 then ⟨minInner⟩ else ⟨0⟩
  else ⟨satI64 (floatRound (Rat.divInt (m.inner * (q.den : Int)) q.num))⟩

/-! ### Claim-side reference definitions

These two definitions follow the words of a claim (not the source); each is
compared against the source embedding in the corresponding theorem. -/

/-- The fractional-part rounding rule as claim C3 words it: zero digits give
`0`; one or two digits are the literal cents value; three or more digits are
cut to the first three, split into the two-digit prefix `i1` and the third
digit `i2`, and the cents are `i1 + 1` when `i2 ≥ 5`, else `i1`. -/
def claimC3Cents (s : List Char) : Int :=
  if s.length = 0 then 0
  else if s.length ≤ 2 then (digitsToNat s : Int)
  else
    let i1 : Nat := digitsToNat (s.take 2)
    let i2 : Nat := digitsToNat ((s.take 3).drop 2)
    if 5 ≤ i2 then (i1 : Int) + 1 else (i1 : Int)

/-- The combine step as claim C8 words it: first form the combined total
`wholePart * 100 + roundedCents` (each step overflow-checked), and only then,
for a negative amount, negate the combined total, again overflow-checked. -/
def claimC8Combine (a : Amount) : Except Error Int := do
  let d ← mkInt a.dollars
  let c ← mkRoundedCents a.cents
  let t1 ← okOr (checkedMulI64 d 100) .outOfRange
  let t2 ← okOr (checkedAddI64 t1 c) .outOfRange
  if a.kind = .negative then
    okOr (if minInner ≤ -t2 ∧ -t2 ≤ maxInner then some (-t2) else none) .outOfRange
  else pure t2

/-! ## Helper lemmas -/

theorem isDig_bounds {c : Char} (h : isDig c = true) : 48 ≤ c.toNat ∧ c.toNat ≤ 57 := by
  simpa [isDig] using h

theorem digitVal_le_nine {c : Char} (h : isDig c = true) : digitVal c ≤ 9 := by
  have := isDig_bounds h
  unfold digitVal
  omega

theorem ne_of_isDig {c d : Char} (h : isDig c = true) (hd : isDig d = false) : c ≠ d := by
  intro e
  rw [e, hd] at h
  cases h

theorem digitsToNat_shift (s : List Char) :
    ∀ a : Nat, List.foldl dstep a s = a * 10 ^ s.length + digitsToNat s := by
  induction s with
  | nil => intro a; simp [digitsToNat]
  | cons c t ih =>
    intro a
    show List.foldl dstep (dstep a c) t = _
    rw [ih (dstep a c)]
    have h0 : digitsToNat (c :: t) = List.foldl dstep (dstep 0 c) t := rfl
    rw [h0, ih (dstep 0 c)]
    simp [dstep, List.length_cons]
    ring

theorem digitsToNat_cons (c : Char) (t : List Char) :
    digitsToNat (c :: t) = digitVal c * 10 ^ t.length + digitsToNat t := by
  show List.foldl dstep (dstep 0 c) t = _
  rw [digitsToNat_shift t (dstep 0 c)]
  simp [dstep]

theorem digitsToNat_append_singleton (xs : List Char) (c : Char) :
    digitsToNat (xs ++ [c]) = 10 * digitsToNat xs + digitVal c := by
  unfold digitsToNat
  rw [List.foldl_append]
  rfl

theorem digitsToNat_lt {s : List Char} (h : s.all isDig = true) :
    digitsToNat s < 10 ^ s.length := by
  induction s with
  | nil => simp [digitsToNat]
  | cons c t ih =>
    rw [List.all_cons, Bool.and_eq_true] at h
    have hc := digitVal_le_nine h.1
    have ht := ih h.2
    rw [digitsToNat_cons]
    have : digitVal c * 10 ^ t.length ≤ 9 * 10 ^ t.length :=
      Nat.mul_le_mul_right _ hc
    calc digitVal c * 10 ^ t.length + digitsToNat t
        < digitVal c * 10 ^ t.length + 10 ^ t.length := by omega
      _ ≤ 9 * 10 ^ t.length + 10 ^ t.length := by omega
      _ = 10 ^ (c :: t).length := by simp [List.length_cons]; ring

theorem digitsToNat_cons_zero (t : List Char) : digitsToNat ('0' :: t) = digitsToNat t := by
  show List.foldl dstep (dstep 0 '0') t = List.foldl dstep 0 t
  have h : dstep 0 '0' = 0 := by decide
  rw [h]

theorem digitChar_isDig : ∀ r : Nat, r < 10 → isDig (digitChar r) = true := by decide

theorem digitChar_val : ∀ r : Nat, r < 10 → digitVal (digitChar r) = r := by decide

theorem natDigitsGo_congr :
    ∀ f1 : Nat, ∀ f2 n : Nat, n ≤ f1 → n ≤ f2 → natDigitsGo f1 n = natDigitsGo f2 n := by
  intro f1
  induction f1 with
  | zero =>
    intro f2 n h1 _
    interval_cases n
    cases f2 <;> simp [natDigitsGo]
  | succ f ih =>
    intro f2 n h1 h2
    by_cases hz : n = 0
    · subst hz; cases f2 <;> simp [natDigitsGo]
    · have hf2 : ∃ g, f2 = g + 1 := ⟨f2 - 1, by omega⟩
      obtain ⟨g, rfl⟩ := hf2
      show natDigitsGo (f + 1) n = natDigitsGo (g + 1) n
      simp only [natDigitsGo, if_neg hz]
      have hdiv : n / 10 < n := Nat.div_lt_self (Nat.pos_of_ne_zero hz) (by decide)
      rw [ih g (n / 10) (by omega) (by omega)]

theorem natDigits_eq_go {fuel n : Nat} (h : n ≤ fuel) : natDigitsGo fuel n = natDigits n :=
  natDigitsGo_congr fuel n n h (le_refl n)

theorem natDigits_zero : natDigits 0 = [] := rfl

theorem natDigits_succ {n : Nat} (h : n ≠ 0) :
    natDigits n = natDigits (n / 10) ++ [digitChar (n % 10)] := by
  obtain ⟨m, rfl⟩ : ∃ m, n = m + 1 := ⟨n - 1, by omega⟩
  show natDigitsGo (m + 1) (m + 1) = _
  simp only [natDigitsGo, if_neg h]
  rw [natDigits_eq_go (show (m + 1) / 10 ≤ m by omega)]

theorem natDigits_all (n : Nat) : ∀ c ∈ natDigits n, isDig c = true := by
  induction n using Nat.strong_induction_on with
  | _ n ih =>
    by_cases hz : n = 0
    · subst hz; simp [natDigits_zero]
    · rw [natDigits_succ hz]
      intro c hc
      rcases List.mem_append.mp hc with h | h
      · exact ih (n / 10) (Nat.div_lt_self (Nat.pos_of_ne_zero hz) (by decide)) c h
      · rw [List.mem_singleton.mp h]
        exact digitChar_isDig (n % 10) (Nat.mod_lt _ (by decide))

theorem digitsToNat_natDigits (n : Nat) : digitsToNat (natDigits n) = n := by
  induction n using Nat.strong_induction_on with
  | _ n ih =>
    by_cases hz : n = 0
    · subst hz; simp [natDigits_zero, digitsToNat]
    · rw [natDigits_succ hz, digitsToNat_append_singleton,
        ih (n / 10) (Nat.div_lt_self (Nat.pos_of_ne_zero hz) (by decide)),
        digitChar_val (n % 10) (Nat.mod_lt _ (by decide))]
      omega

theorem formatNat_all (n : Nat) : ∀ c ∈ formatNat n, isDig c = true := by
  unfold formatNat
  split
  · simp
    decide
  · exact natDigits_all n

theorem formatNat_ne_nil (n : Nat) : formatNat n ≠ [] := by
  unfold formatNat
  split
  · simp
  · next h =>
    rw [natDigits_succ h]
    simp

theorem digitsToNat_formatNat (n : Nat) : digitsToNat (formatNat n) = n := by
  unfold formatNat
  split
  · next h => subst h; decide
  · exact digitsToNat_natDigits n

theorem natDigits_length_one {n : Nat} (h0 : n ≠ 0) (h : n < 10) :
    (natDigits n).length = 1 := by
  rw [natDigits_succ h0, Nat.div_eq_of_lt h, natDigits_zero]
  rfl

theorem formatNat_length_one {n : Nat} (h : n < 10) : (formatNat n).length = 1 := by
  unfold formatNat
  split
  · rfl
  · next hz => exact natDigits_length_one hz h

theorem formatNat_length_two {n : Nat} (h1 : 10 ≤ n) (h2 : n < 100) :
    (formatNat n).length = 2 := by
  have hz : n ≠ 0 := by omega
  unfold formatNat
  rw [if_neg hz, natDigits_succ hz]
  have : (natDigits (n / 10)).length = 1 :=
    natDigits_length_one (by omega) (by omega)
  simp [this]

theorem takeWhile_of_all {p : Char → Bool} :
    ∀ l : List Char, (∀ c ∈ l, p c = true) → l.takeWhile p = l := by
  intro l
  induction l with
  | nil => intro _; rfl
  | cons c t ih =>
    intro h
    rw [List.takeWhile_cons, if_pos (h c (List.mem_cons_self c t)), ih (fun d hd => h d (List.mem_cons_of_mem c hd))]

theorem takeWhile_append_of_all {p : Char → Bool} :
    ∀ xs ys : List Char, (∀ c ∈ xs, p c = true) →
      (xs ++ ys).takeWhile p = xs ++ ys.takeWhile p := by
  intro xs
  induction xs with
  | nil => intro ys _; rfl
  | cons c t ih =>
    intro ys h
    rw [List.cons_append, List.takeWhile_cons, if_pos (h c (List.mem_cons_self c t)),
      ih ys (fun d hd => h d (List.mem_cons_of_mem c hd))]
    rfl

theorem dropWhile_append_of_all {p : Char → Bool} :
    ∀ xs ys : List Char, (∀ c ∈ xs, p c = true) →
      (xs ++ ys).dropWhile p = ys.dropWhile p := by
  intro xs
  induction xs with
  | nil => intro ys _; rfl
  | cons c t ih =>
    intro ys h
    rw [List.cons_append, List.dropWhile_cons, if_pos (h c (List.mem_cons_self c t)),
      ih ys (fun d hd => h d (List.mem_cons_of_mem c hd))]

theorem findMinusCapture_none :
    ∀ s : List Char, (∀ c ∈ s, c ≠ '-') → findMinusCapture s = none := by
  intro s
  induction s with
  | nil => intro _; rfl
  | cons c t ih =>
    intro h
    unfold findMinusCapture
    rw [if_neg (h c (List.mem_cons_self c t)), ih (fun d hd => h d (List.mem_cons_of_mem c hd))]

theorem findParenCapture_none :
    ∀ s : List Char, (∀ c ∈ s, c ≠ '(') → findParenCapture s = none := by
  intro s
  induction s with
  | nil => intro _; rfl
  | cons c t ih =>
    intro h
    unfold findParenCapture
    rw [if_neg (h c (List.mem_cons_self c t)), ih (fun d hd => h d (List.mem_cons_of_mem c hd))]

theorem dotStarTake_of_all {s : List Char} (h : ∀ c ∈ s, c ≠ '\n') : dotStarTake s = s := by
  unfold dotStarTake
  exact takeWhile_of_all s (fun c hc => by simpa using h c hc)

theorem findMinusCapture_cons_minus (rest : List Char) :
    findMinusCapture ('-' :: rest) = some (dotStarTake rest) := by
  unfold findMinusCapture
  rw [if_pos rfl]

/-- `str::parse::<i64>` on a non-empty all-digit string whose value fits. -/
theorem mkInt_digits {s : List Char} (h1 : s ≠ []) (h2 : s.all isDig = true)
    (h3 : (digitsToNat s : Int) ≤ maxInner) : mkInt s = .ok (digitsToNat s) := by
  obtain ⟨c, t, rfl⟩ : ∃ c t, s = c :: t := by
    cases s with
    | nil => exact absurd rfl h1
    | cons c t => exact ⟨c, t, rfl⟩
  have hc : isDig c = true := by
    rw [List.all_cons, Bool.and_eq_true] at h2
    exact h2.1
  have hplus : c ≠ '+' := ne_of_isDig hc (by decide)
  have hminus : c ≠ '-' := ne_of_isDig hc (by decide)
  have hsplit : splitNumSign (c :: t) = (false, c :: t) := by
    show (if c = '+' then (false, t) else if c = '-' then (true, t) else (false, c :: t)) = _
    rw [if_neg hplus, if_neg hminus]
  unfold mkInt parseI64
  rw [hsplit]
  simp only [List.isEmpty_cons, h2, if_pos h3]
  rfl

/-- Bound used for one- and two-character digit strings: their value is below
100, hence in range. -/
theorem digitsToNat_le_two_lt {s : List Char} (h2 : s.all isDig = true)
    (hlen : s.length ≤ 2) : digitsToNat s < 100 := by
  have := digitsToNat_lt h2
  have : digitsToNat s < 10 ^ s.length := this
  have hpow : (10 : Nat) ^ s.length ≤ 10 ^ 2 := Nat.pow_le_pow_right (by decide) hlen
  omega

theorem tdiv_natAbs_100 (v : Int) : (Int.tdiv v 100).natAbs = v.natAbs / 100 := by
  rw [Int.natAbs_tdiv]
  rfl

theorem tmod_natAbs_100 (v : Int) : (Int.tmod v 100).natAbs = v.natAbs % 100 := by
  cases v with
  | ofNat m =>
    show (Int.tmod (Int.ofNat m) (Int.ofNat 100)).natAbs = _
    rw [Int.tmod]
    simp
    omega
  | negSucc m =>
    show (Int.tmod (Int.negSucc m) (Int.ofNat 100)).natAbs = _
    rw [Int.tmod]
    simp
    omega

theorem bindOk {A B : Type} (v : A) (f : A -> Except Error B) :
    ((Except.ok v : Except Error A) >>= f) = f v := rfl

theorem bindErr {A B : Type} (e : Error) (f : A -> Except Error B) :
    ((Except.error e : Except Error A) >>= f) = Except.error e := rfl

theorem mkRoundedCents_digits (s : List Char) (h : s.all isDig = true) :
    mkRoundedCents s = .ok (claimC3Cents s) := by
  have hall : forall c, c ∈ s -> isDig c = true := List.all_eq_true.mp h
  by_cases hlen : s.length > 2
  · have htk : (s.take 3).take 2 = s.take 2 := by
      rw [List.take_take]
      norm_num
    have h1ne : s.take 2 ≠ [] := by
      have : (s.take 2).length = 2 := by rw [List.length_take]; omega
      intro e; rw [e] at this; simp at this
    have h1all : (s.take 2).all isDig = true :=
      List.all_eq_true.mpr (fun c hc => hall c (List.mem_of_mem_take hc))
    have h1lt : digitsToNat (s.take 2) < 100 :=
      digitsToNat_le_two_lt h1all (by rw [List.length_take]; omega)
    have h1 : mkInt (s.take 2) = .ok (digitsToNat (s.take 2)) :=
      mkInt_digits h1ne h1all (by unfold maxInner; push_cast; omega)
    have h2ne : (s.take 3).drop 2 ≠ [] := by
      have : ((s.take 3).drop 2).length = 1 := by
        rw [List.length_drop, List.length_take]; omega
      intro e; rw [e] at this; simp at this
    have h2all : ((s.take 3).drop 2).all isDig = true :=
      List.all_eq_true.mpr (fun c hc =>
        hall c (List.mem_of_mem_take (List.mem_of_mem_drop hc)))
    have h2lt : digitsToNat ((s.take 3).drop 2) < 100 :=
      digitsToNat_le_two_lt h2all (by rw [List.length_drop, List.length_take]; omega)
    have h2 : mkInt ((s.take 3).drop 2) = .ok (digitsToNat ((s.take 3).drop 2)) :=
      mkInt_digits h2ne h2all (by unfold maxInner; push_cast; omega)
    unfold mkRoundedCents roundCents
    rw [if_pos hlen]
    simp only [htk, h1, h2, bindOk]
    unfold claimC3Cents
    rw [if_neg (show ¬ s.length = 0 by omega), if_neg (show ¬ s.length ≤ 2 by omega)]
    by_cases h5 : (5:Nat) ≤ digitsToNat ((s.take 3).drop 2)
    · rw [if_pos (show ((digitsToNat ((s.take 3).drop 2) : Int)) ≥ 5 from by exact_mod_cast h5),
        if_pos h5]
      rfl
    · rw [if_neg (show ¬ ((digitsToNat ((s.take 3).drop 2) : Int)) ≥ 5 from by exact_mod_cast h5),
        if_neg h5]
      rfl
  · unfold mkRoundedCents
    rw [if_neg hlen]
    unfold claimC3Cents
    by_cases hz : s.length = 0
    · rw [if_pos hz]
      have : s = [] := List.eq_nil_of_length_eq_zero hz
      subst this
      rfl
    · rw [if_neg hz, if_pos (show s.length ≤ 2 by omega)]
      exact mkInt_digits (by intro e; rw [e] at hz; simp at hz)
        h (by have := digitsToNat_le_two_lt h (by omega); unfold maxInner; push_cast; omega)

theorem minInner_eq : minInner = -9223372036854775808 := by norm_num [minInner]

theorem maxInner_eq : maxInner = 9223372036854775807 := by norm_num [maxInner]

/-! ## Claim theorems -/

/-- Claim C2: the boundary strings `"92233720368547758.07"` and
`"-92233720368547758.08"` parse to exactly `max()` and `min()`; one more
fractional digit forcing rounding at the third place (`.075` / `.085`) yields
`Err(OutOfRange)`; and the overflow check happens at the `wholePart * 100`
combine step — witnessed by `"9223372036854775807"`, whose whole part fits an
`i64` on its own and is only rejected by `checked_mul(100)`. -/
theorem c2_boundary_parsing :
    Money.parseStr "92233720368547758.07" = .ok ⟨maxInner⟩ ∧
    Money.parseStr "-92233720368547758.08" = .ok ⟨minInner⟩ ∧
    Money.parseStr "92233720368547758.075" = .error .outOfRange ∧
    Money.parseStr "-92233720368547758.085" = .error .outOfRange ∧
    Money.parseStr "9223372036854775807" = .error .outOfRange :=
  ⟨by rfl, by rfl, by rfl, by rfl, by rfl⟩

/-- Claim C3: for digit strings the parsed cents value follows the stated
rule — zero digits give `0`, one or two digits are read literally, three or
more digits are cut to the first three and rounded on the third digit
(`claimC3Cents` transcribes the claim); digits beyond the third never change
the result; `"$123.455"` parses to raw `12346` and `"$123.454"` to `12345`. -/
theorem c3_fractional_rounding (s t : List Char) (h : s.all isDig = true)
    (ht : t.all isDig = true) :
    mkRoundedCents s = .ok (claimC3Cents s) ∧
    (3 ≤ s.length → mkRoundedCents (s ++ t) = mkRoundedCents s) ∧
    Money.parseStr "$123.455" = .ok ⟨12346⟩ ∧
    Money.parseStr "$123.454" = .ok ⟨12345⟩ := by
  refine ⟨mkRoundedCents_digits s h, ?_, by rfl, by rfl⟩
  intro h3
  have hst : (s ++ t).all isDig = true := by
    rw [List.all_append, h, ht]
    rfl
  rw [mkRoundedCents_digits s h, mkRoundedCents_digits (s ++ t) hst]
  have hlen : ¬(s ++ t).length = 0 := by 
    rw [List.length_append]
    omega
  have htake2 : (s ++ t).take 2 = s.take 2 := List.take_append_of_le_length (by omega)
  have htake3 : (s ++ t).take 3 = s.take 3 := List.take_append_of_le_length (by omega)
  unfold claimC3Cents
  rw [if_neg hlen, if_neg (show ¬s.length = 0 by omega),
    if_neg (show ¬(s ++ t).length ≤ 2 by rw [List.length_append]; omega),
    if_neg (show ¬s.length ≤ 2 by omega), htake2, htake3]

theorem c3_witness :
    mkRoundedCents ['4', '5', '5'] = .ok 46 ∧
    mkRoundedCents (['4', '5', '5'] ++ ['9']) = mkRoundedCents ['4', '5', '5'] :=
  ⟨(c3_fractional_rounding ['4', '5', '5'] ['9'] (by decide) (by decide)).1,
   (c3_fractional_rounding ['4', '5', '5'] ['9'] (by decide) (by decide)).2.1 (by decide)⟩

/-- Claim C4: `add` and `sub` compute the exact mathematical result on the
wrapped `i64`s whenever it fits, and fail (debug panic, modelled as `none`) —
never wrap — whenever it lies outside the signed 64-bit range; in particular
`max() + Money(1)`, `min() - Money(1)` and `max() * 2` (the scalar `2` of any
supported integer type casts to the same `2 : i64`) all fail. -/
theorem c4_overflow_never_silent (a b : Int)
    (ha : minInner ≤ a ∧ a ≤ maxInner) (hb : minInner ≤ b ∧ b ≤ maxInner) :
    (∀ r : Money, Money.add ⟨a⟩ ⟨b⟩ = some r → r.inner = a + b) ∧
    (Money.add ⟨a⟩ ⟨b⟩ = none ↔ ¬(minInner ≤ a + b ∧ a + b ≤ maxInner)) ∧
    (∀ r : Money, Money.sub ⟨a⟩ ⟨b⟩ = some r → r.inner = a - b) ∧
    (Money.sub ⟨a⟩ ⟨b⟩ = none ↔ ¬(minInner ≤ a - b ∧ a - b ≤ maxInner)) ∧
    Money.add Money.max' ⟨1⟩ = none ∧
    Money.sub Money.min' ⟨1⟩ = none ∧
    Money.mulInt Money.max' 2 = none ∧
    mulIntMoney 2 Money.max' = none := by
  refine ⟨?_, ?_, ?_, ?_, by rfl, by rfl, by rfl, by rfl⟩
  · intro r hr
    unfold Money.add i64Result at hr
    split at hr
    · cases hr
      rfl
    · cases hr
  · unfold Money.add i64Result
    split
    · next hin =>
      constructor
      · intro h'
        exact Option.noConfusion h'
      · intro hc
        exact absurd hin hc
    · next hout =>
      constructor
      · intro _
        exact hout
      · intro _
        rfl
  · intro r hr
    unfold Money.sub i64Result at hr
    split at hr
    · cases hr
      rfl
    · cases hr
  · unfold Money.sub i64Result
    split
    · next hin =>
      constructor
      · intro h'
        exact Option.noConfusion h'
      · intro hc
        exact absurd hin hc
    · next hout =>
      constructor
      · intro _
        exact hout
      · intro _
        rfl

theorem c4_witness :
    Money.add Money.max' ⟨1⟩ = none ∧
    Money.sub Money.min' ⟨1⟩ = none ∧
    Money.mulInt Money.max' 2 = none := by
  have h := c4_overflow_never_silent 1 2 (by decide) (by decide)
  exact ⟨h.2.2.2.2.1, h.2.2.2.2.2.1, h.2.2.2.2.2.2.1⟩

/-- Claim C5: integer division truncates toward zero — for every in-range
raw value and every nonzero integer scalar (excluding the `i64::MIN / -1`
overflow panic, where the truncated quotient itself has no `i64`
representative), `Money(v) / k == Money(trunc(v / k))`, e.g.
`Money(87808) / 11 == Money(7982)` — while float division rounds to nearest
with ties away from zero, e.g. `Money(87808) / 11.0 == Money(7983)` (and the
same at `f32` precision, which the exact-rational model subsumes). -/
theorem c5_division_asymmetry (v k : Int)
    (hv : minInner ≤ v ∧ v ≤ maxInner) (hk : k ≠ 0) (hmin : ¬(v = minInner ∧ k = -1)) :
    Money.divInt ⟨v⟩ k = some ⟨Int.tdiv v k⟩ ∧
    Money.divInt ⟨87808⟩ 11 = some ⟨7982⟩ ∧
    Money.divFloat ⟨87808⟩ 11 = ⟨7983⟩ := by
  refine ⟨?_, by rfl, by rfl⟩
  have h1 : (Int.tdiv v k).natAbs = v.natAbs / k.natAbs := Int.natAbs_tdiv v k
  have hrange : minInner ≤ Int.tdiv v k ∧ Int.tdiv v k ≤ maxInner := by
    rw [minInner_eq, maxInner_eq] at hv ⊢
    by_cases hv1 : v.natAbs < 9223372036854775808
    · have hlt : (Int.tdiv v k).natAbs < 9223372036854775808 := by
        rw [h1]
        exact lt_of_le_of_lt (Nat.div_le_self _ _) hv1
      omega
    · have hv2 : v.natAbs = 9223372036854775808 := by omega
      have hveq : v = -9223372036854775808 := by omega
      by_cases hk1 : k.natAbs = 1
      · have hk1' : k = 1 := by
          rcases (show k = 1 ∨ k = -1 by omega) with h | h
          · exact h
          · rw [minInner_eq] at hmin
            exact absurd ⟨hveq, h⟩ hmin
        subst hk1'
        rw [Int.tdiv_one]
        omega
      · have hk2 : 2 ≤ k.natAbs := by omega
        have hle : (Int.tdiv v k).natAbs ≤ 9223372036854775808 / 2 := by
          rw [h1, hv2]
          exact Nat.div_le_div_left hk2 (by decide)
        omega
  unfold Money.divInt i64Result
  rw [if_neg hk, if_pos hrange]

theorem c5_witness :
    Money.divInt ⟨87808⟩ 11 = some ⟨Int.tdiv 87808 11⟩ ∧
    Money.divInt ⟨87808⟩ 11 = some ⟨7982⟩ ∧
    Money.divFloat ⟨87808⟩ 11 = ⟨7983⟩ :=
  c5_division_asymmetry 87808 11 (by decide) (by decide) (by decide)

/-- Claim C6 counterexample: the claim predicts `Money(100) * 2.5f64 ==
Money(250)` (`round(raw as float * k)`), but the macro-generated impl casts
the float to `i64` first (`2.5 as i64 = 2`), so the code returns `Money(200)`
in both operand orders — `250` would be the claimed rounded product
(`floatRound` of `500/2 = 250`). -/
theorem c6_counterexample :
    Money.mulFloat ⟨100⟩ (mkRat 5 2) = some ⟨200⟩ ∧
    mulFloatMoney (mkRat 5 2) ⟨100⟩ = some ⟨200⟩ ∧
    floatRound (mkRat 500 2) = 250 ∧
    (some (Money.mk 200) ≠ some (Money.mk 250)) :=
  ⟨by rfl, by rfl, by rfl, by decide⟩

/-- Claim C6 amended: for f64/f32 scalars, `mul` first converts the scalar
with the saturating truncating `as i64` cast and then performs the same
overflow-panicking `i64` multiplication as the integer path (so overflow is
checked, contrary to the claim); the two operand orders agree;
`Money(100) * 2.5 == Money(200)`; and `max() * 100.0` panics. -/
theorem c6_amended (v : Int) (q : ℚ) (hv : minInner ≤ v ∧ v ≤ maxInner) :
    Money.mulFloat ⟨v⟩ q = Money.mulInt ⟨v⟩ (f64AsI64 q) ∧
    Money.mulFloat ⟨v⟩ q = mulFloatMoney q ⟨v⟩ ∧
    Money.mulFloat ⟨100⟩ (mkRat 5 2) = some ⟨200⟩ ∧
    Money.mulFloat ⟨maxInner⟩ 100 = none := by
  refine ⟨rfl, ?_, by rfl, by rfl⟩
  unfold Money.mulFloat mulFloatMoney
  rw [Int.mul_comm]

theorem c6_witness :
    Money.mulFloat ⟨100⟩ (mkRat 5 2) = Money.mulInt ⟨100⟩ (f64AsI64 (mkRat 5 2)) ∧
    Money.mulFloat ⟨100⟩ (mkRat 5 2) = mulFloatMoney (mkRat 5 2) ⟨100⟩ ∧
    Money.mulFloat ⟨100⟩ (mkRat 5 2) = some ⟨200⟩ ∧
    Money.mulFloat ⟨maxInner⟩ 100 = none :=
  c6_amended 100 (mkRat 5 2) (by decide)

/-- Claim C7 counterexample: the claim says `v / 0.0` never returns a `Money`
value, but `Money(1) / 0.0` is `Money(i64::MAX)`: the IEEE quotient `+∞`
passes through `.round()` and the saturating `as i64` cast.  (Integer
division by zero does panic, as the claim says.) -/
theorem c7_counterexample :
    Money.divFloat ⟨1⟩ 0 = ⟨maxInner⟩ ∧ Money.divInt ⟨1⟩ 0 = none :=
  ⟨by rfl, by rfl⟩

/-- Claim C7 amended: dividing by an integer zero panics (no value, for every
raw value `v`), but dividing by a float zero does not fail: it returns
`Money(i64::MAX)` for positive `v`, `Money(i64::MIN)` for negative `v`, and
`Money(0)` for `v = 0` (the IEEE `±∞`/`NaN` quotient saturated by the
`as i64` cast). -/
theorem c7_amended (v : Int) :
    Money.divInt ⟨v⟩ 0 = none ∧
    Money.divFloat ⟨v⟩ 0 =
      (if 0 < v then ⟨maxInner⟩ else if v < 0 then ⟨minInner⟩ else ⟨0⟩) := by
  constructor
  · unfold Money.divInt
    rw [if_pos rfl]
  · unfold Money.divFloat
    rw [if_pos (show (0 : ℚ).num = 0 from rfl)]

/-- Claim C9: inputs containing no digits at all parse as zero: the empty
string, `"$"` and `"."` each return `Ok(Money(0))`. -/
theorem c9_digit_free_inputs :
    Money.parseStr "" = .ok ⟨0⟩ ∧
    Money.parseStr "$" = .ok ⟨0⟩ ∧
    Money.parseStr "." = .ok ⟨0⟩ :=
  ⟨by rfl, by rfl, by rfl⟩

/-- Claim C10: sign-marker matching is unanchored — a non-leading `-` and a
parenthesized group with surrounding garbage still select the negative path,
and the characters outside the capture are discarded: `"x-1"` and `"(1)x"`
both parse to `Money(-100)`. -/
theorem c10_unanchored_sign_markers :
    Money.parseStr "x-1" = .ok ⟨-100⟩ ∧
    Money.parseStr "(1)x" = .ok ⟨-100⟩ :=
  ⟨by rfl, by rfl⟩

/-- Claim C8 counterexample: the claim's combine-then-negate procedure
(`claimC8Combine`, transcribed from the claim) rejects
`"-92233720368547758.08"` with `OutOfRange` — the positive combined total
would be `2^63`, which overflows before the negation step — yet the code
parses that string to `Ok(min())`: the sign is applied to each part *before*
the combine, so no positive `2^63` total is ever formed. -/
theorem c8_counterexample :
    Money.parseStr "-92233720368547758.08" = .ok ⟨minInner⟩ ∧
    Amount.fromChars ("-92233720368547758.08".toList) =
      .ok ⟨.negative, "92233720368547758".toList, "08".toList⟩ ∧
    claimC8Combine ⟨.negative, "92233720368547758".toList, "08".toList⟩ =
      .error .outOfRange :=
  ⟨by rfl, by rfl, by rfl⟩

/-- Claim C8 amended: for a negative amount the parser multiplies the whole
part and the rounded cents by `-1` individually and only then combines them
(`(-d).checked_mul(100)?.checked_add(-c)`, each failure `OutOfRange`); there
is no negation of a combined total, and `MIN_RAW` is reachable:
`"-92233720368547758.08"` parses to `Ok(min())`. -/
theorem c8_negation_order (a : Amount) (h : a.kind = .negative) :
    a.combineDollarsAndCents = (do
      let d ← mkInt a.dollars
      let c ← mkRoundedCents a.cents
      let m ← okOr (checkedMulI64 (-d) 100) .outOfRange
      okOr (checkedAddI64 m (-c)) .outOfRange) ∧
    Money.parseStr "-92233720368547758.08" = .ok ⟨minInner⟩ := by
  constructor
  · have hsign : a.applySign = -1 := by
      unfold Amount.applySign
      rw [if_pos h]
    unfold Amount.combineDollarsAndCents
    rw [hsign]
    cases hd : mkInt a.dollars with
    | error e => rw [bindErr, bindErr]
    | ok d =>
      rw [bindOk, bindOk]
      cases hc : mkRoundedCents a.cents with
      | error e => rw [bindErr, bindErr]
      | ok c =>
        rw [bindOk, bindOk]
        rw [mul_neg_one, mul_neg_one]
  · rfl

theorem c8_witness :
    (Amount.mk .negative ['1'] []).combineDollarsAndCents = (do
      let d ← mkInt (Amount.mk .negative ['1'] []).dollars
      let c ← mkRoundedCents (Amount.mk .negative ['1'] []).cents
      let m ← okOr (checkedMulI64 (-d) 100) .outOfRange
      okOr (checkedAddI64 m (-c)) .outOfRange) ∧
    Money.parseStr "-92233720368547758.08" = .ok ⟨minInner⟩ :=
  c8_negation_order ⟨.negative, ['1'], []⟩ rfl

theorem okOr_some (v : Int) (e : Error) : okOr (some v) e = .ok v := rfl

theorem okOr_none (e : Error) : okOr none e = .error e := rfl

theorem combine_eval (a : Amount) (d c : Int)
    (hd : mkInt a.dollars = .ok d) (hc : mkRoundedCents a.cents = .ok c)
    (hr1 : minInner ≤ d * a.applySign * 100 ∧ d * a.applySign * 100 ≤ maxInner)
    (hr2 : minInner ≤ d * a.applySign * 100 + c * a.applySign ∧
           d * a.applySign * 100 + c * a.applySign ≤ maxInner) :
    a.combineDollarsAndCents = .ok (d * a.applySign * 100 + c * a.applySign) := by
  unfold Amount.combineDollarsAndCents
  rw [hd, bindOk, hc, bindOk]
  unfold checkedMulI64 checkedAddI64
  rw [if_pos hr1, okOr_some, bindOk, if_pos hr2, okOr_some]

theorem validInner_display (d c : List Char) (hd : ∀ x ∈ d, isDig x = true)
    (hc : ∀ x ∈ c, isDig x = true) :
    validInner ('$' :: (d ++ '.' :: c)) = some (d, c) := by
  show (let s1 := d ++ '.' :: c
        let dd := s1.takeWhile isDigOrComma
        match s1.dropWhile isDigOrComma with
        | [] => some (dd, [])
        | '.' :: cc => if cc.all isDig then some (dd, cc) else none
        | _ => none) = some (d, c)
  have hdall : ∀ x ∈ d, isDigOrComma x = true := by
    intro x hx
    unfold isDigOrComma
    rw [hd x hx]
    rfl
  have htw : (d ++ '.' :: c).takeWhile isDigOrComma = d := by
    rw [takeWhile_append_of_all d ('.' :: c) hdall, List.takeWhile_cons,
      if_neg (by decide), List.append_nil]
  have hdw : (d ++ '.' :: c).dropWhile isDigOrComma = '.' :: c := by
    rw [dropWhile_append_of_all d ('.' :: c) hdall, List.dropWhile_cons,
      if_neg (by decide)]
  simp only [htw, hdw]
  rw [if_pos (List.all_eq_true.mpr hc)]

theorem amountNew_display (k : AmountKind) (d c : List Char)
    (hd : ∀ x ∈ d, isDig x = true) (hc : ∀ x ∈ c, isDig x = true) :
    Amount.new k ('$' :: (d ++ '.' :: c)) = .ok ⟨k, d, c⟩ := by
  unfold Amount.new
  rw [validInner_display d c hd hc]
  have hsc : stripCommas d = d := by
    unfold stripCommas
    rw [List.filter_eq_self]
    intro x hx
    have h1 : isDig x = true := hd x hx
    have h2 : x ≠ ',' := ne_of_isDig h1 (by decide)
    simp [h2]
  show Except.ok (Amount.mk k (stripCommas d) c) = Except.ok (Amount.mk k d c)
  rw [hsc]

theorem dollars_formatNat (v : Int) :
    Money.dollars ⟨v⟩ = formatNat (v.natAbs / 100) := by
  unfold Money.dollars
  rw [tdiv_natAbs_100]

theorem cents_formatNat (v : Int) :
    Money.cents ⟨v⟩ =
      (if v.natAbs % 100 < 10 then ['0'] else []) ++ formatNat (v.natAbs % 100) := by
  simp only [Money.cents]
  rw [tmod_natAbs_100]

theorem cents_all_isDig (v : Int) : ∀ x ∈ Money.cents ⟨v⟩, isDig x = true := by
  rw [cents_formatNat]
  intro x hx
  rcases List.mem_append.mp hx with h | h
  · split at h
    · rw [List.mem_singleton.mp h]
      decide
    · cases h
  · exact formatNat_all _ x h

theorem cents_length_two (v : Int) : (Money.cents ⟨v⟩).length = 2 := by
  rw [cents_formatNat]
  have hlt : v.natAbs % 100 < 100 := Nat.mod_lt _ (by decide)
  by_cases h10 : v.natAbs % 100 < 10
  · rw [if_pos h10, List.length_append, formatNat_length_one h10]
    rfl
  · rw [if_neg h10, List.length_append, formatNat_length_two (by omega) hlt]
    rfl

theorem cents_digitsToNat (v : Int) :
    digitsToNat (Money.cents ⟨v⟩) = v.natAbs % 100 := by
  rw [cents_formatNat]
  by_cases h10 : v.natAbs % 100 < 10
  · rw [if_pos h10]
    show digitsToNat ('0' :: formatNat (v.natAbs % 100)) = _
    rw [digitsToNat_cons_zero, digitsToNat_formatNat]
  · rw [if_neg h10]
    show digitsToNat ([] ++ formatNat (v.natAbs % 100)) = _
    rw [List.nil_append, digitsToNat_formatNat]

theorem mkRoundedCents_cents (v : Int) :
    mkRoundedCents (Money.cents ⟨v⟩) = .ok ((v.natAbs % 100 : Nat) : Int) := by
  have hlen := cents_length_two v
  have hlt : v.natAbs % 100 < 100 := Nat.mod_lt _ (by decide)
  unfold mkRoundedCents
  rw [if_neg (by omega)]
  rw [mkInt_digits (by intro e; rw [e] at hlen; simp at hlen)
    (List.all_eq_true.mpr (cents_all_isDig v))
    (by rw [cents_digitsToNat, maxInner_eq]; push_cast; omega), cents_digitsToNat]

theorem mkInt_dollars (v : Int) (h1 : minInner ≤ v) (h2 : v ≤ maxInner) :
    mkInt (Money.dollars ⟨v⟩) = .ok ((v.natAbs / 100 : Nat) : Int) := by
  have h0 : v.natAbs ≤ 9223372036854775808 := by
    rw [minInner_eq] at h1
    rw [maxInner_eq] at h2
    omega
  have hb : v.natAbs / 100 ≤ 92233720368547758 := by
    calc v.natAbs / 100 ≤ 9223372036854775808 / 100 := Nat.div_le_div_right h0
      _ = 92233720368547758 := by norm_num
  rw [dollars_formatNat]
  rw [mkInt_digits (formatNat_ne_nil _) (List.all_eq_true.mpr (formatNat_all _))
    (by rw [digitsToNat_formatNat, maxInner_eq]; omega), digitsToNat_formatNat]


theorem c1_neg_range1 (v : Int) (h0 : v.natAbs ≤ 9223372036854775808) :
    minInner ≤ ((v.natAbs / 100 : Nat) : Int) * (-1) * 100 ∧
    ((v.natAbs / 100 : Nat) : Int) * (-1) * 100 ≤ maxInner := by
  rw [minInner_eq, maxInner_eq]
  omega

theorem c1_neg_range2 (v : Int) (h0 : v.natAbs ≤ 9223372036854775808) :
    minInner ≤ ((v.natAbs / 100 : Nat) : Int) * (-1) * 100 +
      ((v.natAbs % 100 : Nat) : Int) * (-1) ∧
    ((v.natAbs / 100 : Nat) : Int) * (-1) * 100 +
      ((v.natAbs % 100 : Nat) : Int) * (-1) ≤ maxInner := by
  rw [minInner_eq, maxInner_eq]
  omega

theorem c1_neg_value (v : Int) (hneg : v < 0) :
    ((v.natAbs / 100 : Nat) : Int) * (-1) * 100 + ((v.natAbs % 100 : Nat) : Int) * (-1) = v := by
  omega

theorem c1_pos_range1 (v : Int) (h2 : v ≤ maxInner) (hpos : ¬v < 0) :
    minInner ≤ ((v.natAbs / 100 : Nat) : Int) * 1 * 100 ∧
    ((v.natAbs / 100 : Nat) : Int) * 1 * 100 ≤ maxInner := by
  rw [minInner_eq, maxInner_eq] at *
  omega

theorem c1_pos_range2 (v : Int) (h2 : v ≤ maxInner) (hpos : ¬v < 0) :
    minInner ≤ ((v.natAbs / 100 : Nat) : Int) * 1 * 100 +
      ((v.natAbs % 100 : Nat) : Int) * 1 ∧
    ((v.natAbs / 100 : Nat) : Int) * 1 * 100 +
      ((v.natAbs % 100 : Nat) : Int) * 1 ≤ maxInner := by
  rw [minInner_eq, maxInner_eq] at *
  omega

theorem c1_pos_value (v : Int) (hpos : ¬v < 0) :
    ((v.natAbs / 100 : Nat) : Int) * 1 * 100 + ((v.natAbs % 100 : Nat) : Int) * 1 = v := by
  omega

/-- Claim C1: round-trip through the canonical display form — for every raw
`i64` value `v` (including `min()` and `max()`), parsing the display string
(`parse_str` is `parse_en_us_utf8` on the string's characters) returns exactly
`Money(v)`, and the display string carries exactly two fractional digits
(the characters after the `'.'` are `Money::cents`, of length two), so no
fractional rounding loss occurs. -/
theorem c1_display_roundtrip (v : Int) (h1 : minInner ≤ v) (h2 : v ≤ maxInner) :
    parseEnUsUtf8 (Money.toDisplayChars ⟨v⟩) = .ok ⟨v⟩ ∧
    (Money.cents ⟨v⟩).length = 2 := by
  refine ⟨?_, cents_length_two v⟩
  have hDC : v.natAbs / 100 * 100 + v.natAbs % 100 = v.natAbs := by omega
  have hC100 : v.natAbs % 100 < 100 := Nat.mod_lt _ (by decide)
  have h0 : v.natAbs ≤ 9223372036854775808 := by
    rw [minInner_eq] at h1
    rw [maxInner_eq] at h2
    omega
  have hdall : ∀ x ∈ Money.dollars ⟨v⟩, isDig x = true := by
    rw [dollars_formatNat]
    exact formatNat_all _
  have hcall := cents_all_isDig v
  have hdint := mkInt_dollars v h1 h2
  have hcint := mkRoundedCents_cents v
  have hD100 : v.natAbs / 100 * 100 ≤ 9223372036854775800 := by omega
  by_cases hneg : v < 0
  · -- negative: display is '-' :: '$' :: dollars ++ '.' :: cents
    have hsign0 : Money.sign ⟨v⟩ = ['-'] := by
      unfold Money.sign
      rw [if_pos hneg]
    have hdisp : Money.toDisplayChars ⟨v⟩ =
        '-' :: ('$' :: (Money.dollars ⟨v⟩ ++ '.' :: Money.cents ⟨v⟩)) := by
      unfold Money.toDisplayChars
      rw [hsign0]
      rfl
    have hbodynl : ∀ x ∈ '$' :: (Money.dollars ⟨v⟩ ++ '.' :: Money.cents ⟨v⟩), x ≠ '\n' := by
      intro x hx
      rcases List.mem_cons.mp hx with h | h
      · subst h; decide
      · rcases List.mem_append.mp h with h | h
        · exact ne_of_isDig (hdall x h) (by decide)
        · rcases List.mem_cons.mp h with h | h
          · subst h; decide
          · exact ne_of_isDig (hcall x h) (by decide)
    have hnoparen : ∀ x ∈ Money.toDisplayChars ⟨v⟩, x ≠ '(' := by
      rw [hdisp]
      intro x hx
      rcases List.mem_cons.mp hx with h | h
      · subst h; decide
      · rcases List.mem_cons.mp h with h | h
        · subst h; decide
        · rcases List.mem_append.mp h with h | h
          · exact ne_of_isDig (hdall x h) (by decide)
          · rcases List.mem_cons.mp h with h | h
            · subst h; decide
            · exact ne_of_isDig (hcall x h) (by decide)
    have hfrom : Amount.fromChars (Money.toDisplayChars ⟨v⟩) =
        .ok ⟨.negative, Money.dollars ⟨v⟩, Money.cents ⟨v⟩⟩ := by
      unfold Amount.fromChars
      rw [findParenCapture_none _ hnoparen, hdisp, findMinusCapture_cons_minus,
        dotStarTake_of_all hbodynl]
      exact amountNew_display .negative _ _ hdall hcall
    unfold parseEnUsUtf8
    rw [hfrom, bindOk]
    unfold Amount.toMoney
    have hsgn : (Amount.mk .negative (Money.dollars ⟨v⟩) (Money.cents ⟨v⟩)).applySign = -1 := rfl
    have hcomb := combine_eval (Amount.mk .negative (Money.dollars ⟨v⟩) (Money.cents ⟨v⟩))
      ((v.natAbs / 100 : Nat) : Int) ((v.natAbs % 100 : Nat) : Int) hdint hcint
      (by rw [hsgn]; exact c1_neg_range1 v h0) (by rw [hsgn]; exact c1_neg_range2 v h0)
    rw [hsgn] at hcomb
    rw [hcomb]
    have hval := c1_neg_value v hneg
    show Except.ok (Money.mk _) = _
    rw [hval]
  · -- non-negative
    have hsign0 : Money.sign ⟨v⟩ = [] := by
      unfold Money.sign
      rw [if_neg hneg]
    have hdisp : Money.toDisplayChars ⟨v⟩ =
        '$' :: (Money.dollars ⟨v⟩ ++ '.' :: Money.cents ⟨v⟩) := by
      unfold Money.toDisplayChars
      rw [hsign0]
      rfl
    have hnominus : ∀ x ∈ Money.toDisplayChars ⟨v⟩, x ≠ '-' := by
      rw [hdisp]
      intro x hx
      rcases List.mem_cons.mp hx with h | h
      · subst h; decide
      · rcases List.mem_append.mp h with h | h
        · exact ne_of_isDig (hdall x h) (by decide)
        · rcases List.mem_cons.mp h with h | h
          · subst h; decide
          · exact ne_of_isDig (hcall x h) (by decide)
    have hnoparen : ∀ x ∈ Money.toDisplayChars ⟨v⟩, x ≠ '(' := by
      rw [hdisp]
      intro x hx
      rcases List.mem_cons.mp hx with h | h
      · subst h; decide
      · rcases List.mem_append.mp h with h | h
        · exact ne_of_isDig (hdall x h) (by decide)
        · rcases List.mem_cons.mp h with h | h
          · subst h; decide
          · exact ne_of_isDig (hcall x h) (by decide)
    have hfrom : Amount.fromChars (Money.toDisplayChars ⟨v⟩) =
        .ok ⟨.positive, Money.dollars ⟨v⟩, Money.cents ⟨v⟩⟩ := by
      unfold Amount.fromChars
      rw [findMinusCapture_none _ hnominus, findParenCapture_none _ hnoparen, hdisp]
      exact amountNew_display .positive _ _ hdall hcall
    unfold parseEnUsUtf8
    rw [hfrom, bindOk]
    unfold Amount.toMoney
    have hsgn : (Amount.mk .positive (Money.dollars ⟨v⟩) (Money.cents ⟨v⟩)).applySign = 1 := rfl
    have hcomb := combine_eval (Amount.mk .positive (Money.dollars ⟨v⟩) (Money.cents ⟨v⟩))
      ((v.natAbs / 100 : Nat) : Int) ((v.natAbs % 100 : Nat) : Int) hdint hcint
      (by rw [hsgn]; exact c1_pos_range1 v h2 hneg) (by rw [hsgn]; exact c1_pos_range2 v h2 hneg)
    rw [hsgn] at hcomb
    rw [hcomb]
    have hval := c1_pos_value v hneg
    show Except.ok (Money.mk _) = _
    rw [hval]

theorem c1_witness :
    parseEnUsUtf8 (Money.toDisplayChars ⟨-(2 ^ 63)⟩) = .ok ⟨-(2 ^ 63)⟩ ∧
    (Money.cents ⟨-(2 ^ 63)⟩).length = 2 :=
  c1_display_roundtrip (-(2 ^ 63)) (by decide) (by decide)
